import Mathlib

/-!
Shallow embedding of `shaka.util.AbortableOperation`
(src/lib/media/gap_jumping_controller.js, the `AbortableOperation` document
section), together with the promise infrastructure it relies on.

Promises are modelled per the design notes of the specification: a future is a
value that is pending, fulfilled or rejected, settles exactly once, and carries
an explicit settle time where the claims are temporal.  JavaScript's value
universe for rejection reasons is modelled as `ShakaError ⊕ ε`, so that the
canonical abort error and arbitrary other reasons coexist.
-/

namespace Shaka

/-- Severity constants of `shaka.util.Error`.  The error class itself is not
among the sources; only the constructors referenced by
`AbortableOperation.abortError()` matter for the claims, so the enums are
modelled symbolically. -/
inductive Severity where
  | RECOVERABLE
  | CRITICAL
deriving DecidableEq, Repr

/-- Category constants of `shaka.util.Error` (symbolic). -/
inductive Category where
  | NETWORK
  | MEDIA
  | DRM
  | PLAYER
  | STORAGE
deriving DecidableEq, Repr

/-- Code constants of `shaka.util.Error` (symbolic). -/
inductive ErrorCode where
  | OPERATION_ABORTED
  | LOAD_INTERRUPTED
  | UNKNOWN
deriving DecidableEq, Repr

/-- `shaka.util.Error`: the triple of enum fields set by its constructor. -/
structure ShakaError where
  severity : Severity
  category : Category
  code : ErrorCode
deriving DecidableEq, Repr

/-- `AbortableOperation.abortError()`: builds the canonical abort error
`new shaka.util.Error(Severity.CRITICAL, Category.PLAYER,
Code.OPERATION_ABORTED)`. -/
def abortError : ShakaError :=
  { severity := .CRITICAL, category := .PLAYER, code := .OPERATION_ABORTED }

/-- A JavaScript rejection reason: either a `shaka.util.Error` or any other
value (type `ε`). -/
abbrev JsErr (ε : Type) : Type := ShakaError ⊕ ε

/-- A settled-or-never future, with an explicit settle time (`t`) used by the
temporal claims.  `never` is a future that never settles. -/
inductive FutureVal (α ε : Type) where
  | fulfilled (v : α) (t : Nat)
  | rejected (e : ε) (t : Nat)
  | never
deriving DecidableEq, Repr

/-- The time at which a future settles, if it ever does. -/
def FutureVal.settleTime : FutureVal α ε → Option Nat
  | .fulfilled _ t => some t
  | .rejected _ t => some t
  | .never => none

/-- Whether a future settles by rejecting. -/
def FutureVal.isRejection : FutureVal α ε → Bool
  | .rejected _ _ => true
  | _ => false

/-- A JavaScript value of type `α`, or `undefined`. -/
inductive JsValue (α : Type) where
  | val (v : α)
  | undef
deriving DecidableEq, Repr

/-- `promise.catch(() => {})`: passes a fulfillment value through unchanged,
turns a rejection into fulfillment with `undefined`, and never settles if the
input never settles.  This is the future returned by `notAbortable`'s abort
callback. -/
def catchNoop : FutureVal α ε → FutureVal (JsValue α) ε
  | .fulfilled v t => .fulfilled (.val v) t
  | .rejected _ t => .fulfilled .undef t
  | .never => .never

/-- The observable data of one `shaka.util.AbortableOperation`:
its `promise`, whether that promise has had a rejection handler pre-attached
(`p.catch(() => {})` in the `aborted()` factory, which marks the rejection as
observed so unhandled-rejection diagnostics stay silent), and the future the
`onAbort_` callback returns when it is invoked. -/
structure AbortableOperation (α ε : Type) where
  promise : FutureVal α (JsErr ε)
  observed : Bool
  onAbort_ : FutureVal (JsValue α) (JsErr ε)
deriving DecidableEq, Repr

namespace AbortableOperation

/-- `AbortableOperation.completed(value)`: an operation already resolved with
`value`, whose abort callback returns `Promise.resolve()`. -/
def completed (v : α) : AbortableOperation α ε :=
  { promise := .fulfilled v 0, observed := false, onAbort_ := .fulfilled .undef 0 }

/-- `AbortableOperation.failed(error)`: an operation already rejected with
`error`, whose abort callback returns `Promise.resolve()`. -/
def failed (e : JsErr ε) : AbortableOperation α ε :=
  { promise := .rejected e 0, observed := false, onAbort_ := .fulfilled .undef 0 }

/-- `AbortableOperation.aborted()`: an operation already rejected with the
canonical abort error; the rejection is silenced with `p.catch(() => {})`
(modelled by `observed := true`), and the abort callback returns
`Promise.resolve()`. -/
def aborted : AbortableOperation α ε :=
  { promise := .rejected (Sum.inl abortError) 0, observed := true,
    onAbort_ := .fulfilled .undef 0 }

/-- `AbortableOperation.notAbortable(promise)`: the operation's promise is the
given one, and the abort callback returns `promise.catch(() => {})`. -/
def notAbortable (p : FutureVal α (JsErr ε)) : AbortableOperation α ε :=
  { promise := p, observed := false, onAbort_ := catchNoop p }

end AbortableOperation

/-- The eventual outcome of a promise: fulfilled, rejected, or never settling.
Used untimed inside the chain machine. -/
inductive PromiseOutcome (α ε : Type) where
  | fulfilled (v : α)
  | rejected (e : ε)
  | never
deriving DecidableEq, Repr

/-- Modelled from the spec: the state of a `shaka.util.PublicPromise` cell
(the class itself is not among the sources).  Per the design notes, it holds
`pending | fulfilled | rejected`, settles exactly once, and `resolve`/`reject`
on an already-settled cell are no-ops.  `adopting r` is the locked-in state
after `resolve(thenable)`: the cell can no longer be settled by anyone else and
will eventually settle as `r` does. -/
inductive PState (β ε : Type) where
  | pending
  | fulfilled (v : β)
  | rejected (e : ε)
  | adopting (r : PromiseOutcome β ε)
deriving DecidableEq, Repr

/-- `publicPromise.resolve(v)` with a plain (non-thenable) value. -/
def PState.resolveVal : PState β ε → β → PState β ε
  | .pending, v => .fulfilled v
  | s, _ => s

/-- `publicPromise.resolve(thenable)`: locks the cell onto the thenable's
eventual outcome. -/
def PState.resolveThenable : PState β ε → PromiseOutcome β ε → PState β ε
  | .pending, r => .adopting r
  | s, _ => s

/-- `publicPromise.reject(e)`. -/
def PState.rejectWith : PState β ε → ε → PState β ε
  | .pending, e => .rejected e
  | s, _ => s

/-- The outcome a caller awaiting the cell eventually observes. -/
def PState.outcome : PState β ε → PromiseOutcome β ε
  | .pending => .never
  | .fulfilled v => .fulfilled v
  | .rejected e => .rejected e
  | .adopting r => r

/-- What a chain continuation (`onSuccess`/`onError`) does when invoked: return
a plain value, return a bare promise, return a nested `AbortableOperation`
(something with `promise` and `abort`), or throw synchronously. -/
inductive CbRet (α ε : Type) where
  | value (v : α)
  | promise (r : PromiseOutcome α (JsErr ε))
  | operation (r : PromiseOutcome α (JsErr ε))
  | throws (e : JsErr ε)

/-- The current value of the reassignable `abort` closure variable of one
`chain` link: `initial` rejects the new promise with the abort error and
forwards to the upstream operation's `abort()`; `downstreamOp` is
`() => ret.abort()` for a nested operation; `awaitSettle` waits for a returned
value/promise to settle; `noop` is `() => Promise.resolve()` after a
continuation threw. -/
inductive Delegate where
  | initial
  | downstreamOp
  | awaitSettle
  | noop
deriving DecidableEq, Repr

/-- Configuration of one chain link `B = A.chain(onSuccess, onError)`:
how `A`'s promise eventually settles, and the two optional continuations. -/
structure ChainCfg (α ε : Type) where
  aOutcome : PromiseOutcome α (JsErr ε)
  onSuccess : Option (α → CbRet α ε)
  onError : Option (JsErr ε → CbRet α ε)

/-- The mutable state of one chain link and of the two operations it touches.
`aAborted` is `A.abortPromise_ !== null`; `aAbortCount` counts invocations of
`A`'s underlying `onAbort_` callback; `bAborted` is `B.abortPromise_ !== null`;
`downstreamAbortCount` counts invocations of a nested returned operation's
`abort()`; `newP` is the `PublicPromise` backing `B.promise`; `delegate` is the
current `abort` closure; the two call counters count continuation
invocations. -/
structure ChainState (α ε : Type) where
  aSettled : Bool
  cbRan : Bool
  aAborted : Bool
  aAbortCount : Nat
  bAborted : Bool
  downstreamAbortCount : Nat
  newP : PState α (JsErr ε)
  delegate : Delegate
  onSuccessCalls : Nat
  onErrorCalls : Nat
deriving DecidableEq, Repr

/-- The state right after `chain` returns: nothing settled, nothing aborted,
the new promise pending, the abort delegate pointing at the upstream. -/
def chainInit : ChainState α ε :=
  { aSettled := false, cbRan := false, aAborted := false, aAbortCount := 0,
    bAborted := false, downstreamAbortCount := 0, newP := .pending,
    delegate := .initial, onSuccessCalls := 0, onErrorCalls := 0 }

/-- The `const abortError = AbortableOperation.abortError()` captured by one
`chain` call, injected into the rejection-reason universe. -/
def chainAbortErr (ε : Type) : JsErr ε := Sum.inl abortError

/-- `wrapChainCallback_(cb, value, newPromise)` after `cb value` produced `r`:
settles or locks `newP` accordingly and returns the next abort delegate.
A nested operation's promise is adopted and `abort` becomes `() => ret.abort()`;
a value or bare promise makes `abort` wait for it to settle; a synchronous
throw rejects `newP` with the thrown value and makes `abort` an immediate
no-op. -/
def wrapChainCallback_ (r : CbRet α ε) (s : ChainState α ε) : ChainState α ε :=
  match r with
  | .value v => { s with newP := s.newP.resolveVal v, delegate := .awaitSettle }
  | .promise q => { s with newP := s.newP.resolveThenable q, delegate := .awaitSettle }
  | .operation q => { s with newP := s.newP.resolveThenable q, delegate := .downstreamOp }
  | .throws e => { s with newP := s.newP.rejectWith e, delegate := .noop }

/-- The reaction `makeCallback(isSuccess)` scheduled on `A.promise.then(...)`,
run as its own microtask once `A` has settled: on the success path, if
`A.abortPromise_` is set the continuation is skipped and `newP` is rejected
with the abort error; otherwise a missing continuation passes the settlement
along, and a present one is invoked through `wrapChainCallback_`. -/
def chainRunCb (cfg : ChainCfg α ε) (s : ChainState α ε) : ChainState α ε :=
  if s.aSettled && !s.cbRan then
    match cfg.aOutcome with
    | .never => s
    | .fulfilled v =>
      if s.aAborted then
        { s with cbRan := true, newP := s.newP.rejectWith (chainAbortErr ε) }
      else
        match cfg.onSuccess with
        | none => { s with cbRan := true, newP := s.newP.resolveVal v }
        | some f =>
            wrapChainCallback_ (f v)
              { s with cbRan := true, onSuccessCalls := s.onSuccessCalls + 1 }
    | .rejected e =>
      match cfg.onError with
      | none => { s with cbRan := true, newP := s.newP.rejectWith e }
      | some g =>
          wrapChainCallback_ (g e)
            { s with cbRan := true, onErrorCalls := s.onErrorCalls + 1 }
  else s

/-- `B.abort()`: the first call invokes the current `abort` delegate and caches
its future, any later call returns the cache.  The `initial` delegate rejects
`newP` with the abort error and calls `A.abort()`, which invokes `A`'s
underlying `onAbort_` only if `A.abortPromise_` is not already set. -/
def chainAbortB (s : ChainState α ε) : ChainState α ε :=
  if s.bAborted then s
  else
    let s1 := { s with bAborted := true }
    match s1.delegate with
    | .initial =>
        let s2 := { s1 with newP := s1.newP.rejectWith (chainAbortErr ε) }
        if s2.aAborted then s2
        else { s2 with aAborted := true, aAbortCount := s2.aAbortCount + 1 }
    | .downstreamOp =>
        { s1 with downstreamAbortCount := s1.downstreamAbortCount + 1 }
    | .awaitSettle => s1
    | .noop => s1

/-- The externally scheduled events of one chain link: `A`'s promise settling,
the scheduled `then` reaction running, and a call to `B.abort()`. -/
inductive ChainEvent where
  | settleA
  | runCb
  | abortB
deriving DecidableEq, Repr

/-- One scheduler step of the chain link. -/
def chainStep (cfg : ChainCfg α ε) (s : ChainState α ε) :
    ChainEvent → ChainState α ε
  | .settleA =>
      if s.aSettled then s
      else
        match cfg.aOutcome with
        | .never => s
        | _ => { s with aSettled := true }
  | .runCb => chainRunCb cfg s
  | .abortB => chainAbortB s

/-- Run the chain link over a whole event trace. -/
def chainRun (cfg : ChainCfg α ε) (tr : List ChainEvent) : ChainState α ε :=
  tr.foldl (chainStep cfg) chainInit

/-- The `abortPromise_` cache of one operation plus the number of times its
underlying `onAbort_` callback has been invoked.  `τ` is the type used to
represent the cleanup future. -/
structure AbortCell (τ : Type) where
  abortPromise : Option τ
  calls : Nat
deriving DecidableEq, Repr

/-- A fresh operation: no abort requested yet. -/
def AbortCell.init : AbortCell τ :=
  { abortPromise := none, calls := 0 }

/-- `abort()`: `if (!this.abortPromise_) this.abortPromise_ = this.onAbort_();
return this.abortPromise_;` — the first call invokes the callback (whose
returned future is `onAbort`) and caches its result, later calls return the
cache. -/
def abortCall (onAbort : τ) (c : AbortCell τ) : AbortCell τ × τ :=
  match c.abortPromise with
  | some p => (c, p)
  | none => ({ abortPromise := some onAbort, calls := c.calls + 1 }, onAbort)

/-- Call `abort()` `n` times in a row, collecting the returned futures. -/
def abortCalls (onAbort : τ) (c : AbortCell τ) : Nat → AbortCell τ × List τ
  | 0 => (c, [])
  | n + 1 =>
    let r1 := abortCall onAbort c
    let r2 := abortCalls onAbort r1.1 n
    (r2.1, r1.2 :: r2.2)

/-- A cleanup future as used for abort propagation: `some t` resolves at time
`t`, `none` never resolves.  (Abort callbacks never reject by contract.) -/
abbrev Cleanup : Type := Option Nat

/-- The rejection `Promise.all` reacts to first: the member rejection with the
smallest settle time, ties going to the earliest-listed member (reaction
registration order). -/
def earliestRejection : List (FutureVal α ε) → Option (ε × Nat)
  | [] => none
  | .fulfilled _ _ :: rest => earliestRejection rest
  | .never :: rest => earliestRejection rest
  | .rejected e t :: rest =>
    match earliestRejection rest with
    | some (e', t') => if t' < t then some (e', t') else some (e, t)
    | none => some (e, t)

/-- If every member fulfills: their values in member order, and the time the
last one settles. -/
def allValues : List (FutureVal α ε) → Option (List α × Nat)
  | [] => some ([], 0)
  | .fulfilled v t :: rest => (allValues rest).map (fun p => (v :: p.1, max t p.2))
  | .rejected _ _ :: _ => none
  | .never :: _ => none

/-- `Promise.all(promises)`: rejects with the first rejection observed, or
fulfills with the ordered values once every member has fulfilled, or never
settles. -/
def promiseAll (ps : List (FutureVal α ε)) : FutureVal (List α) ε :=
  match earliestRejection ps with
  | some (e, t) => .rejected e t
  | none =>
    match allValues ps with
    | some (vs, t) => .fulfilled vs t
    | none => .never

/-- A member operation as `AbortableOperation.all` sees it: its promise's
eventual outcome, the resolve time of the future its abort callback returns,
and its `abortPromise_` cache. -/
structure AllMember (α ε : Type) where
  outcome : FutureVal α (JsErr ε)
  onAbort : Cleanup
  cell : AbortCell Cleanup
deriving DecidableEq, Repr

/-- View an `AbortableOperation` as a member of `all`: the cleanup future is
the settle time of the future its abort callback returns, and no abort has
been requested on it yet. -/
def AllMember.ofOp (op : AbortableOperation α ε) : AllMember α ε :=
  { outcome := op.promise, onAbort := op.onAbort_.settleTime, cell := .init }

/-- The promise of `AbortableOperation.all(operations)`:
`Promise.all(operations.map((op) => op.promise))`. -/
def allPromise (ops : List (AllMember α ε)) : FutureVal (List α) (JsErr ε) :=
  promiseAll (ops.map AllMember.outcome)

/-- `Promise.all` over cleanup futures: resolves once every one has resolved,
at the time the last one does. -/
def allCleanup : List Cleanup → Cleanup
  | [] => some 0
  | none :: _ => none
  | some t :: rest =>
    match allCleanup rest with
    | some t' => some (max t t')
    | none => none

/-- The abort side of `AbortableOperation.all(operations)`:
`() => Promise.all(operations.map((op) => op.abort()))` — call `abort()` on
every member and aggregate the returned cleanup futures. -/
def allAbort (ops : List (AllMember α ε)) : List (AllMember α ε) × Cleanup :=
  let stepped := ops.map (fun op =>
    let r := abortCall op.onAbort op.cell
    ({ op with cell := r.1 }, r.2))
  (stepped.map Prod.fst, allCleanup (stepped.map Prod.snd))

/-! Helper lemmas. -/

/-- A predicate preserved by every step holds after any trace. -/
theorem foldl_inv {σ ι : Type} (P : σ → Prop) (f : σ → ι → σ)
    (hstep : ∀ s i, P s → P (f s i)) :
    ∀ (tr : List ι) (s : σ), P s → P (tr.foldl f s) := by
  intro tr
  induction tr with
  | nil => intro s h; exact h
  | cons i tr ih => intro s h; exact ih _ (hstep _ _ h)

/-- `resolve` with a plain value is a no-op on a non-pending cell. -/
theorem PState.resolveVal_of_ne {s : PState α ε} (h : s ≠ .pending) (v : α) :
    s.resolveVal v = s := by
  cases s with
  | pending => exact absurd rfl h
  | fulfilled v => rfl
  | rejected e => rfl
  | adopting r => rfl

/-- `resolve` with a thenable is a no-op on a non-pending cell. -/
theorem PState.resolveThenable_of_ne {s : PState α ε} (h : s ≠ .pending)
    (r : PromiseOutcome α ε) : s.resolveThenable r = s := by
  cases s with
  | pending => exact absurd rfl h
  | fulfilled v => rfl
  | rejected e => rfl
  | adopting r => rfl

/-- `reject` is a no-op on a non-pending cell. -/
theorem PState.rejectWith_of_ne {s : PState α ε} (h : s ≠ .pending) (e : ε) :
    s.rejectWith e = s := by
  cases s with
  | pending => exact absurd rfl h
  | fulfilled v => rfl
  | rejected e => rfl
  | adopting r => rfl

/-- `wrapChainCallback_` touches only `newP` and `delegate`. -/
theorem wrapChainCallback_flags (r : CbRet α ε) (s : ChainState α ε) :
    (wrapChainCallback_ r s).aSettled = s.aSettled ∧
    (wrapChainCallback_ r s).cbRan = s.cbRan ∧
    (wrapChainCallback_ r s).aAborted = s.aAborted ∧
    (wrapChainCallback_ r s).aAbortCount = s.aAbortCount ∧
    (wrapChainCallback_ r s).bAborted = s.bAborted ∧
    (wrapChainCallback_ r s).downstreamAbortCount = s.downstreamAbortCount ∧
    (wrapChainCallback_ r s).onSuccessCalls = s.onSuccessCalls ∧
    (wrapChainCallback_ r s).onErrorCalls = s.onErrorCalls := by
  cases r <;> simp [wrapChainCallback_]

/-- `wrapChainCallback_` cannot change an already-settled `newP`. -/
theorem wrapChainCallback_newP_of_ne (r : CbRet α ε) (s : ChainState α ε)
    (h : s.newP ≠ .pending) : (wrapChainCallback_ r s).newP = s.newP := by
  cases r with
  | value v => exact PState.resolveVal_of_ne h v
  | promise q => exact PState.resolveThenable_of_ne h q
  | operation q => exact PState.resolveThenable_of_ne h q
  | throws e => exact PState.rejectWith_of_ne h e

/-- Once `A` has settled, its reaction has run and `B.abort()` has been
requested, the chain-link state is a fixed point of every further event. -/
theorem chainStep_fixed (cfg : ChainCfg α ε) (s : ChainState α ε)
    (hA : s.aSettled = true) (hCb : s.cbRan = true) (hB : s.bAborted = true)
    (ev : ChainEvent) : chainStep cfg s ev = s := by
  cases ev with
  | settleA => simp [chainStep, hA]
  | runCb => simp [chainStep, chainRunCb, hCb]
  | abortB => simp [chainStep, chainAbortB, hB]

/-- Repeated calls to `abort()` after the first return the cached future and
never re-invoke the callback. -/
theorem abortCalls_cached (fut p : τ) (k n : Nat) :
    abortCalls fut ⟨some p, k⟩ n = (⟨some p, k⟩, List.replicate n p) := by
  induction n with
  | zero => rfl
  | succ n ih => simp [abortCalls, abortCall, ih, List.replicate]

/-- C3: for every operation whose abort callback returns a future that
resolves (at some time `t`), calling `abort()` any positive number of times
invokes the underlying callback exactly once, and every call returns the one
cached future, which resolves. -/
theorem abort_idempotent_memoized (t n : Nat) :
    (abortCalls (some t : Cleanup) AbortCell.init (n + 1)).1.calls = 1 ∧
    (abortCalls (some t : Cleanup) AbortCell.init (n + 1)).2
        = List.replicate (n + 1) (some t) ∧
    ((abortCalls (some t : Cleanup) AbortCell.init (n + 1)).2.all
        Option.isSome) = true := by
  have h : abortCalls (some t : Cleanup) AbortCell.init (n + 1)
      = (⟨some (some t), 1⟩, List.replicate (n + 1) (some t)) := by
    simp [abortCalls, abortCall, AbortCell.init, abortCalls_cached,
      List.replicate]
  rw [h]
  refine ⟨rfl, rfl, ?_⟩
  simp [List.all_eq_true]

/-- C6: `notAbortable(p)` settles exactly as `p` does, and the future its
abort callback returns settles exactly when `p` settles (whether `p` fulfills
or rejects) and is itself never a rejection. -/
theorem notAbortable_abort_waits (α ε : Type) (p : FutureVal α (JsErr ε)) :
    (AbortableOperation.notAbortable p).promise = p ∧
    ((AbortableOperation.notAbortable p).onAbort_).settleTime = p.settleTime ∧
    ((AbortableOperation.notAbortable p).onAbort_).isRejection = false := by
  refine ⟨rfl, ?_, ?_⟩ <;>
    cases p <;> rfl

/-- C10: when `p` fulfills with `v`, the future returned by
`notAbortable(p).abort()` fulfills with `v` itself, passed through
`promise.catch(() => {})`; only when `p` rejects does it fulfill with
`undefined`. -/
theorem notAbortable_abort_value_passthrough (α ε : Type) (v : α)
    (e : JsErr ε) (t u : Nat) :
    (AbortableOperation.notAbortable (.fulfilled v t : FutureVal α (JsErr ε))).onAbort_
        = .fulfilled (.val v) t ∧
    (AbortableOperation.notAbortable (.rejected e u : FutureVal α (JsErr ε))).onAbort_
        = .fulfilled .undef u :=
  ⟨rfl, rfl⟩

/-- C7: `aborted()` is already rejected with the canonical abort error — the
triple CRITICAL / PLAYER / OPERATION_ABORTED — its rejection is pre-marked as
observed, and its abort callback resolves trivially. -/
theorem aborted_canonical_error (α ε : Type) :
    (AbortableOperation.aborted : AbortableOperation α ε).promise
        = .rejected (Sum.inl abortError) 0 ∧
    (AbortableOperation.aborted : AbortableOperation α ε).observed = true ∧
    (AbortableOperation.aborted : AbortableOperation α ε).onAbort_
        = .fulfilled .undef 0 ∧
    abortError
        = { severity := .CRITICAL, category := .PLAYER,
            code := .OPERATION_ABORTED } :=
  ⟨rfl, rfl, rfl, rfl⟩

/-- C8: when `A` settles with value `v`, a `chain` with no `onSuccess` adopts
`v` directly, and a `chain` whose `onSuccess` returns a plain value settles
with that value; in particular `completed(2).chain(v => v * 2)` resolves
to `4`. -/
theorem chain_success_value (α ε : Type) (v : α) (f : α → α)
    (g : Option (JsErr ε → CbRet α ε)) :
    (chainRun (⟨.fulfilled v, none, g⟩ : ChainCfg α ε)
        [.settleA, .runCb]).newP = .fulfilled v ∧
    (chainRun (⟨.fulfilled v, some (fun x => .value (f x)), g⟩ : ChainCfg α ε)
        [.settleA, .runCb]).newP = .fulfilled (f v) ∧
    (chainRun (⟨.fulfilled 2, some (fun x => .value (x * 2)), none⟩ :
        ChainCfg Nat Unit) [.settleA, .runCb]).newP = .fulfilled 4 :=
  ⟨rfl, rfl, rfl⟩

/-- The chain-link invariant established by a `B.abort()` that beats `A`'s
settlement: `B` is committed to the abort error, `A`'s abort callback has run
exactly once, and `onSuccess` has never been invoked. -/
def AbortedInv (s : ChainState α ε) : Prop :=
  s.bAborted = true ∧ s.aAborted = true ∧ s.aAbortCount = 1 ∧
  s.onSuccessCalls = 0 ∧ s.newP = .rejected (chainAbortErr ε)

/-- `AbortedInv` is preserved by every chain-link event. -/
theorem abortedInv_step (cfg : ChainCfg α ε) (s : ChainState α ε)
    (ev : ChainEvent) (h : AbortedInv s) : AbortedInv (chainStep cfg s ev) := by
  obtain ⟨aS, cbR, aAb, aCnt, bAb, dCnt, nP, dlg, sC, eC⟩ := s
  obtain ⟨hB, hA, hC, hS, hP⟩ := h
  have hB' : bAb = true := hB
  have hA' : aAb = true := hA
  have hC' : aCnt = 1 := hC
  have hS' : sC = 0 := hS
  have hP' : nP = .rejected (chainAbortErr ε) := hP
  subst hB' hA' hC' hS' hP'
  cases ev with
  | settleA =>
    cases aS <;> cases ho : cfg.aOutcome <;>
      simp [chainStep, AbortedInv, ho]
  | abortB =>
    simp [chainStep, chainAbortB, AbortedInv]
  | runCb =>
    cases aS with
    | false => simp [chainStep, chainRunCb, AbortedInv]
    | true =>
      cases cbR with
      | true => simp [chainStep, chainRunCb, AbortedInv]
      | false =>
        cases ho : cfg.aOutcome with
        | never => simp [chainStep, chainRunCb, AbortedInv, ho]
        | fulfilled v =>
          simp [chainStep, chainRunCb, AbortedInv, ho, PState.rejectWith]
        | rejected e =>
          cases hg : cfg.onError with
          | none =>
            simp [chainStep, chainRunCb, AbortedInv, ho, hg, PState.rejectWith]
          | some g =>
            cases hr : g e <;>
              simp [chainStep, chainRunCb, AbortedInv, ho, hg, hr,
                wrapChainCallback_, PState.resolveVal, PState.resolveThenable,
                PState.rejectWith]

/-- C1: if `B = A.chain(onSuccess, onError)` and `B.abort()` arrives before
`A` has settled, then whatever happens afterwards — including `A` settling
successfully and its reaction running — `B`'s result is rejected with the
abort error, `A`'s abort callback has been invoked exactly once, and the
`onSuccess` continuation is never invoked. -/
theorem chain_abort_before_settle_wins (α ε : Type) (v : α)
    (f : Option (α → CbRet α ε)) (g : Option (JsErr ε → CbRet α ε))
    (tr : List ChainEvent) :
    (chainRun (⟨.fulfilled v, f, g⟩ : ChainCfg α ε) (.abortB :: tr)).newP
        = .rejected (Sum.inl abortError) ∧
    (chainRun (⟨.fulfilled v, f, g⟩ : ChainCfg α ε) (.abortB :: tr)).aAbortCount
        = 1 ∧
    (chainRun (⟨.fulfilled v, f, g⟩ : ChainCfg α ε) (.abortB :: tr)).onSuccessCalls
        = 0 := by
  have h : AbortedInv
      (chainRun (⟨.fulfilled v, f, g⟩ : ChainCfg α ε) (.abortB :: tr)) := by
    rw [chainRun, List.foldl_cons]
    exact foldl_inv _ _ (fun s i hi => abortedInv_step _ s i hi) tr _
      ⟨rfl, rfl, rfl, rfl, rfl⟩
  exact ⟨h.2.2.2.2, h.2.2.1, h.2.2.2.1⟩

/-- A trace appended after a state whose reaction has run and whose `abort()`
has been requested changes nothing. -/
theorem chainRun_fixed_tail (cfg : ChainCfg α ε) (s : ChainState α ε)
    (hA : s.aSettled = true) (hCb : s.cbRan = true) (hB : s.bAborted = true)
    (tr : List ChainEvent) : tr.foldl (chainStep cfg) s = s := by
  induction tr with
  | nil => rfl
  | cons ev tr ih =>
    rw [List.foldl_cons, chainStep_fixed cfg s hA hCb hB ev]
    exact ih

/-- C9: the skip-on-abort guard covers the success path only: if `B.abort()`
has been requested and `A` then settles with a failure, the `onError`
continuation still runs (exactly once), while its produced outcome is
discarded — `B`'s result stays the abort error — and `onSuccess` stays
uninvoked. -/
theorem chain_onError_still_runs_after_abort (α ε : Type) (e : JsErr ε)
    (f : Option (α → CbRet α ε)) (g : JsErr ε → CbRet α ε)
    (tr : List ChainEvent) :
    (chainRun (⟨.rejected e, f, some g⟩ : ChainCfg α ε)
        ([.abortB, .settleA, .runCb] ++ tr)).onErrorCalls = 1 ∧
    (chainRun (⟨.rejected e, f, some g⟩ : ChainCfg α ε)
        ([.abortB, .settleA, .runCb] ++ tr)).onSuccessCalls = 0 ∧
    (chainRun (⟨.rejected e, f, some g⟩ : ChainCfg α ε)
        ([.abortB, .settleA, .runCb] ++ tr)).newP
        = .rejected (Sum.inl abortError) := by
  set st : ChainState α ε :=
    { aSettled := true, cbRan := true, aAborted := true, aAbortCount := 1,
      bAborted := true, downstreamAbortCount := 0,
      newP := .rejected (Sum.inl abortError), delegate := .initial,
      onSuccessCalls := 0, onErrorCalls := 1 } with hst
  have hflags := wrapChainCallback_flags (g e) st
  have hrun : chainRun (⟨.rejected e, f, some g⟩ : ChainCfg α ε)
      ([.abortB, .settleA, .runCb] ++ tr) = wrapChainCallback_ (g e) st := by
    rw [chainRun, List.foldl_append]
    have h1 : List.foldl (chainStep (⟨.rejected e, f, some g⟩ : ChainCfg α ε))
        chainInit [.abortB, .settleA, .runCb] = wrapChainCallback_ (g e) st := rfl
    rw [h1]
    exact chainRun_fixed_tail _ _ hflags.1 hflags.2.1 hflags.2.2.2.2.1 tr
  rw [hrun]
  refine ⟨hflags.2.2.2.2.2.2.2, hflags.2.2.2.2.2.2.1, ?_⟩
  have hne : st.newP ≠ .pending := by
    rw [hst]
    simp
  exact wrapChainCallback_newP_of_ne (g e) st hne

/-- C5: a continuation that throws `boom` synchronously rejects `B`'s result
with exactly `boom`, and a `B.abort()` issued after the continuation has run
finds a no-op delegate: it resolves immediately, invoking neither the
upstream's nor any downstream cleanup, and leaves the result unchanged. -/
theorem chain_callback_throw_propagates (α ε : Type) (v : α) (boom : JsErr ε)
    (g : Option (JsErr ε → CbRet α ε)) (tr : List ChainEvent) :
    (chainRun (⟨.fulfilled v, some (fun _ => .throws boom), g⟩ : ChainCfg α ε)
        [.settleA, .runCb]).newP = .rejected boom ∧
    (chainRun (⟨.fulfilled v, some (fun _ => .throws boom), g⟩ : ChainCfg α ε)
        [.settleA, .runCb]).delegate = .noop ∧
    (chainRun (⟨.fulfilled v, some (fun _ => .throws boom), g⟩ : ChainCfg α ε)
        ([.settleA, .runCb, .abortB] ++ tr)).newP = .rejected boom ∧
    (chainRun (⟨.fulfilled v, some (fun _ => .throws boom), g⟩ : ChainCfg α ε)
        ([.settleA, .runCb, .abortB] ++ tr)).aAbortCount = 0 ∧
    (chainRun (⟨.fulfilled v, some (fun _ => .throws boom), g⟩ : ChainCfg α ε)
        ([.settleA, .runCb, .abortB] ++ tr)).downstreamAbortCount = 0 := by
  have hrun : chainRun
      (⟨.fulfilled v, some (fun _ => .throws boom), g⟩ : ChainCfg α ε)
      ([.settleA, .runCb, .abortB] ++ tr)
      = { aSettled := true, cbRan := true, aAborted := false, aAbortCount := 0,
          bAborted := true, downstreamAbortCount := 0,
          newP := .rejected boom, delegate := .noop,
          onSuccessCalls := 1, onErrorCalls := 0 } := by
    rw [chainRun, List.foldl_append]
    have h1 : List.foldl
        (chainStep (⟨.fulfilled v, some (fun _ => .throws boom), g⟩ :
          ChainCfg α ε)) chainInit [.settleA, .runCb, .abortB]
        = { aSettled := true, cbRan := true, aAborted := false,
            aAbortCount := 0, bAborted := true, downstreamAbortCount := 0,
            newP := .rejected boom, delegate := .noop,
            onSuccessCalls := 1, onErrorCalls := 0 } := rfl
    rw [h1]
    exact chainRun_fixed_tail _ _ rfl rfl rfl tr
  rw [hrun]
  exact ⟨rfl, rfl, rfl, rfl, rfl⟩

/-- No chain-link event can change an already-settled `newP`. -/
theorem chainStep_newP_of_ne (cfg : ChainCfg α ε) (s : ChainState α ε)
    (ev : ChainEvent) (h : s.newP ≠ .pending) :
    (chainStep cfg s ev).newP = s.newP := by
  cases ev with
  | settleA =>
    cases hs : s.aSettled <;> cases ho : cfg.aOutcome <;>
      simp [chainStep, hs, ho]
  | runCb =>
    cases hs : s.aSettled with
    | false => simp [chainStep, chainRunCb, hs]
    | true =>
      cases hc : s.cbRan with
      | true => simp [chainStep, chainRunCb, hs, hc]
      | false =>
        cases ho : cfg.aOutcome with
        | never => simp [chainStep, chainRunCb, hs, hc, ho]
        | fulfilled v =>
          cases ha : s.aAborted with
          | true =>
            simp [chainStep, chainRunCb, hs, hc, ho, ha]
            exact PState.rejectWith_of_ne h _
          | false =>
            cases hf : cfg.onSuccess with
            | none =>
              simp [chainStep, chainRunCb, hs, hc, ho, ha, hf]
              exact PState.resolveVal_of_ne h _
            | some fS =>
              simp [chainStep, chainRunCb, hs, hc, ho, ha, hf]
              exact wrapChainCallback_newP_of_ne (fS v) _ h
        | rejected e =>
          cases hg : cfg.onError with
          | none =>
            simp [chainStep, chainRunCb, hs, hc, ho, hg]
            exact PState.rejectWith_of_ne h _
          | some g =>
            simp [chainStep, chainRunCb, hs, hc, ho, hg]
            exact wrapChainCallback_newP_of_ne (g e) _ h
  | abortB =>
    cases hb : s.bAborted with
    | true => simp [chainStep, chainAbortB, hb]
    | false =>
      cases hd : s.delegate with
      | initial =>
        cases ha : s.aAborted <;>
          · simp [chainStep, chainAbortB, hb, hd, ha]
            exact PState.rejectWith_of_ne h _
      | downstreamOp => simp [chainStep, chainAbortB, hb, hd]
      | awaitSettle => simp [chainStep, chainAbortB, hb, hd]
      | noop => simp [chainStep, chainAbortB, hb, hd]

/-- A whole trace cannot change an already-settled `newP`. -/
theorem chainFold_newP_of_ne (cfg : ChainCfg α ε) (tr : List ChainEvent) :
    ∀ (s : ChainState α ε), s.newP ≠ .pending →
      (tr.foldl (chainStep cfg) s).newP = s.newP := by
  induction tr with
  | nil => intro s _; rfl
  | cons ev tr ih =>
    intro s h
    rw [List.foldl_cons]
    have hstep := chainStep_newP_of_ne cfg s ev h
    rw [ih _ (by rw [hstep]; exact h), hstep]

/-- C2: the result of an operation produced by `chain` settles exactly once
and is immutable from then on: once the backing promise has left the pending
state after some event prefix, no continuation of the trace — upstream
settlement, continuation run, or abort — can change it, so an awaiting caller
observes exactly one final outcome. -/
theorem chain_result_settles_once (α ε : Type) (cfg : ChainCfg α ε)
    (tr₁ tr₂ : List ChainEvent)
    (h : (chainRun cfg tr₁).newP ≠ .pending) :
    (chainRun cfg (tr₁ ++ tr₂)).newP = (chainRun cfg tr₁).newP := by
  have happ : chainRun cfg (tr₁ ++ tr₂)
      = tr₂.foldl (chainStep cfg) (chainRun cfg tr₁) := by
    rw [chainRun, chainRun, List.foldl_append]
  rw [happ]
  exact chainFold_newP_of_ne cfg tr₂ _ h

/-- A list of fulfilled members has no rejection for `Promise.all` to see. -/
theorem earliestRejection_map_fulfilled (ms : List (α × Nat)) :
    earliestRejection (ε := ε) (ms.map fun p => FutureVal.fulfilled p.1 p.2)
      = none := by
  induction ms with
  | nil => rfl
  | cons m ms ih => simp [earliestRejection, ih]

/-- Fulfilled members collect into the ordered value list, settling when the
last member does. -/
theorem allValues_map_fulfilled (ms : List (α × Nat)) :
    allValues (ε := ε) (ms.map fun p => FutureVal.fulfilled p.1 p.2)
      = some (ms.map Prod.fst, (ms.map Prod.snd).foldr max 0) := by
  induction ms with
  | nil => rfl
  | cons m ms ih => simp [allValues, ih]

/-- If `earliestRejection` finds nothing, no member rejected. -/
theorem earliestRejection_none (ps : List (FutureVal α ε)) :
    earliestRejection ps = none →
    ∀ (e : ε) (t : Nat), FutureVal.rejected e t ∉ ps := by
  induction ps with
  | nil => intro _ e t; simp
  | cons f rest ih =>
    intro h e t hmem
    cases f with
    | fulfilled v u =>
      rw [earliestRejection] at h
      rcases List.mem_cons.mp hmem with heq | hmem2
      · exact FutureVal.noConfusion heq
      · exact ih h e t hmem2
    | never =>
      rw [earliestRejection] at h
      rcases List.mem_cons.mp hmem with heq | hmem2
      · exact FutureVal.noConfusion heq
      · exact ih h e t hmem2
    | rejected e0 t0 =>
      rw [earliestRejection] at h
      cases hr : earliestRejection rest with
      | none =>
        simp only [hr] at h
        exact Option.noConfusion h
      | some pr =>
        obtain ⟨e1, t1⟩ := pr
        simp only [hr] at h
        split at h <;> exact Option.noConfusion h

/-- The rejection `earliestRejection` picks belongs to some member. -/
theorem earliestRejection_mem (ps : List (FutureVal α ε)) :
    ∀ (e : ε) (t : Nat), earliestRejection ps = some (e, t) →
      FutureVal.rejected e t ∈ ps := by
  induction ps with
  | nil => intro e t h; exact Option.noConfusion h
  | cons f rest ih =>
    intro e t h
    cases f with
    | fulfilled v u =>
      rw [earliestRejection] at h
      exact List.mem_cons_of_mem _ (ih e t h)
    | never =>
      rw [earliestRejection] at h
      exact List.mem_cons_of_mem _ (ih e t h)
    | rejected e0 t0 =>
      rw [earliestRejection] at h
      cases hr : earliestRejection rest with
      | none =>
        simp only [hr] at h
        obtain ⟨he, ht⟩ : e0 = e ∧ t0 = t := by simpa using h
        subst he; subst ht
        exact List.mem_cons_self _ _
      | some pr =>
        obtain ⟨e1, t1⟩ := pr
        simp only [hr] at h
        by_cases hlt : t1 < t0
        · rw [if_pos hlt] at h
          obtain ⟨he, ht⟩ : e1 = e ∧ t1 = t := by simpa using h
          subst he; subst ht
          exact List.mem_cons_of_mem _ (ih _ _ hr)
        · rw [if_neg hlt] at h
          obtain ⟨he, ht⟩ : e0 = e ∧ t0 = t := by simpa using h
          subst he; subst ht
          exact List.mem_cons_self _ _

/-- The rejection `earliestRejection` picks is no later than any member
rejection. -/
theorem earliestRejection_min (ps : List (FutureVal α ε)) :
    ∀ (e : ε) (t : Nat), earliestRejection ps = some (e, t) →
    ∀ (e2 : ε) (t2 : Nat), FutureVal.rejected e2 t2 ∈ ps → t ≤ t2 := by
  induction ps with
  | nil => intro e t h; exact Option.noConfusion h
  | cons f rest ih =>
    intro e t h e2 t2 hmem
    rcases List.mem_cons.mp hmem with heq | hmem2
    · cases f with
      | fulfilled v u => exact FutureVal.noConfusion heq
      | never => exact FutureVal.noConfusion heq
      | rejected e0 t0 =>
        have ht : t2 = t0 := by
          injection heq with h1 h2
        rw [earliestRejection] at h
        cases hr : earliestRejection rest with
        | none =>
          simp only [hr] at h
          have h2 : t0 = t := ((by simpa using h : e0 = e ∧ t0 = t)).2
          omega
        | some pr =>
          obtain ⟨e1, t1⟩ := pr
          simp only [hr] at h
          by_cases hlt : t1 < t0
          · rw [if_pos hlt] at h
            have h2 : t1 = t := ((by simpa using h : e1 = e ∧ t1 = t)).2
            omega
          · rw [if_neg hlt] at h
            have h2 : t0 = t := ((by simpa using h : e0 = e ∧ t0 = t)).2
            omega
    · cases f with
      | fulfilled v u =>
        rw [earliestRejection] at h
        exact ih e t h e2 t2 hmem2
      | never =>
        rw [earliestRejection] at h
        exact ih e t h e2 t2 hmem2
      | rejected e0 t0 =>
        rw [earliestRejection] at h
        cases hr : earliestRejection rest with
        | none => exact absurd hmem2 (earliestRejection_none rest hr e2 t2)
        | some pr =>
          obtain ⟨e1, t1⟩ := pr
          simp only [hr] at h
          have h1 := ih e1 t1 hr e2 t2 hmem2
          by_cases hlt : t1 < t0
          · rw [if_pos hlt] at h
            have h2 : t1 = t := ((by simpa using h : e1 = e ∧ t1 = t)).2
            omega
          · rw [if_neg hlt] at h
            have h2 : t0 = t := ((by simpa using h : e0 = e ∧ t0 = t)).2
            omega

/-- A member rejection forces `earliestRejection` to find one. -/
theorem earliestRejection_isSome_of_mem (ps : List (FutureVal α ε)) (e : ε)
    (t : Nat) (h : FutureVal.rejected e t ∈ ps) :
    (earliestRejection ps).isSome = true := by
  cases hr : earliestRejection ps with
  | some pr => rfl
  | none => exact absurd h (earliestRejection_none ps hr e t)

/-- Aggregating cleanup futures that each resolve yields a future resolving
when the last of them does. -/
theorem allCleanup_map_some (ts : List Nat) :
    allCleanup (ts.map some) = some (ts.foldr max 0) := by
  induction ts with
  | nil => rfl
  | cons t ts ih => simp [allCleanup, ih]

/-- Mapping everything to `1` is a `replicate`. -/
theorem map_one_replicate {σ : Type} (l : List σ) :
    (l.map fun _ => (1 : Nat)) = List.replicate l.length 1 := by
  induction l with
  | nil => rfl
  | cons a l ih => simp [ih, List.replicate]

/-- C4: `all(operations)` fulfills with the member values in member order once
every member succeeds; when members fail it rejects with the first failure
observed (in particular `all([completed(1), failed(err)])` rejects with
`err`); and its `abort()` calls `abort()` on every member (each underlying
callback runs once on fresh members) and resolves once the last member
cleanup has resolved. -/
theorem all_fail_fast_and_abort (α ε : Type) :
    (∀ (ms : List (α × Nat)),
      allPromise (ms.map fun p =>
          (⟨.fulfilled p.1 p.2, some 0, .init⟩ : AllMember α ε))
        = .fulfilled (ms.map Prod.fst) ((ms.map Prod.snd).foldr max 0)) ∧
    (∀ (ops : List (AllMember α ε)) (e : JsErr ε) (t : Nat),
      allPromise ops = .rejected e t →
        FutureVal.rejected e t ∈ ops.map AllMember.outcome ∧
        ∀ (e2 : JsErr ε) (t2 : Nat),
          FutureVal.rejected e2 t2 ∈ ops.map AllMember.outcome → t ≤ t2) ∧
    (∀ (ops : List (AllMember α ε)) (e : JsErr ε) (t : Nat),
      FutureVal.rejected e t ∈ ops.map AllMember.outcome →
        (allPromise ops).isRejection = true) ∧
    (∀ (err : JsErr Unit),
      allPromise [AllMember.ofOp (AbortableOperation.completed 1),
                  AllMember.ofOp (AbortableOperation.failed err)]
        = FutureVal.rejected err 0) ∧
    (∀ (ds : List (FutureVal α (JsErr ε) × Nat)),
      ((allAbort (ds.map fun d =>
          (⟨d.1, some d.2, .init⟩ : AllMember α ε))).1.map
            fun op => op.cell.calls) = List.replicate ds.length 1 ∧
      (allAbort (ds.map fun d =>
          (⟨d.1, some d.2, .init⟩ : AllMember α ε))).2
        = some ((ds.map Prod.snd).foldr max 0)) := by
  refine ⟨?_, ?_, ?_, ?_, ?_⟩
  · intro ms
    have hmap : ((ms.map fun p =>
        (⟨.fulfilled p.1 p.2, some 0, .init⟩ : AllMember α ε)).map
          AllMember.outcome)
        = ms.map (fun p => FutureVal.fulfilled p.1 p.2) := by
      rw [List.map_map]
      rfl
    rw [allPromise, hmap, promiseAll, earliestRejection_map_fulfilled,
      allValues_map_fulfilled]
  · intro ops e t h
    rw [allPromise, promiseAll] at h
    cases hr : earliestRejection (ops.map AllMember.outcome) with
    | none =>
      rw [hr] at h
      cases hv : allValues (ops.map AllMember.outcome) with
      | none => rw [hv] at h; exact FutureVal.noConfusion h
      | some p =>
        obtain ⟨vs, T⟩ := p
        rw [hv] at h
        exact FutureVal.noConfusion h
    | some pr =>
      obtain ⟨e0, t0⟩ := pr
      rw [hr] at h
      obtain ⟨he, ht⟩ : e0 = e ∧ t0 = t := by
        injection h with h1 h2
        exact ⟨h1, h2⟩
      subst he; subst ht
      exact ⟨earliestRejection_mem _ _ _ hr, earliestRejection_min _ _ _ hr⟩
  · intro ops e t h
    have hs := earliestRejection_isSome_of_mem _ _ _ h
    rw [allPromise, promiseAll]
    cases hr : earliestRejection (ops.map AllMember.outcome) with
    | none => rw [hr] at hs; exact Bool.noConfusion hs
    | some pr =>
      obtain ⟨e0, t0⟩ := pr
      rfl
  · intro err
    rfl
  · intro ds
    have h1 : (allAbort (ds.map fun d =>
        (⟨d.1, some d.2, .init⟩ : AllMember α ε))).1
        = ds.map (fun d =>
            (⟨d.1, some d.2, ⟨some (some d.2), 1⟩⟩ : AllMember α ε)) := by
      unfold allAbort
      simp only [List.map_map]
      rfl
    have h2 : (allAbort (ds.map fun d =>
        (⟨d.1, some d.2, .init⟩ : AllMember α ε))).2
        = some ((ds.map Prod.snd).foldr max 0) := by
      have hx := allCleanup_map_some (ds.map Prod.snd)
      rw [List.map_map] at hx
      unfold allAbort
      simp only [List.map_map]
      exact hx
    refine ⟨?_, h2⟩
    rw [h1, List.map_map]
    exact map_one_replicate ds

/-- Witness for C4: the fail-fast conjuncts applied at a one-member list whose
member has already failed. -/
theorem all_fail_fast_and_abort_witness :
    FutureVal.rejected (Sum.inr ()) 0
        ∈ ([⟨.rejected (Sum.inr ()) 0, some 0, .init⟩] :
            List (AllMember Nat Unit)).map AllMember.outcome ∧
    (allPromise ([⟨.rejected (Sum.inr ()) 0, some 0, .init⟩] :
        List (AllMember Nat Unit))).isRejection = true :=
  ⟨((all_fail_fast_and_abort Nat Unit).2.1 _ _ _ (by decide)).1,
   (all_fail_fast_and_abort Nat Unit).2.2.1 _ (Sum.inr ()) 0 (by decide)⟩

/-- Witness for C2 at a concrete chain link and trace split. -/
theorem chain_result_settles_once_witness :
    (chainRun (⟨.fulfilled 0, none, none⟩ : ChainCfg Nat Unit)
        ([.abortB] ++ [.settleA, .runCb])).newP
      = (chainRun (⟨.fulfilled 0, none, none⟩ : ChainCfg Nat Unit)
        [.abortB]).newP :=
  chain_result_settles_once Nat Unit ⟨.fulfilled 0, none, none⟩
    [.abortB] [.settleA, .runCb] (by decide)

end Shaka
